import Mathlib

/-!
Verification development for the tc-prospects data-enrichment scripts.

The definitions below are a shallow embedding of the Python scripts under
`scripts/`: strings are `List Char`/`String`, floats are modelled as `Rat`,
Python dicts with optional keys become structures with `Option` fields, and
each script's in-place mutation of a district record becomes a pure function
from the old record (or its `contacts` list) to the new one.  Missing dict
keys and JSON `null` values are both modelled as `none`.
-/

namespace TCProspects

/-! ## Python string primitives -/

/-- Python word character test for the regex `\b` boundary (ASCII part of `\w`). -/
def isWordChar (c : Char) : Bool :=
  c.isAlphanum || c == '_'

/-- Python whitespace test (the ASCII characters matched by `\s`). -/
def pyIsSpace (c : Char) : Bool :=
  c == ' ' || c == '\t' || c == '\n' || c == '\r' ||
  c.toNat == 11 || c.toNat == 12

/-- Python `str.lower` on one ASCII character. -/
def pyLowerChar (c : Char) : Char :=
  if 65 ≤ c.toNat ∧ c.toNat ≤ 90 then Char.ofNat (c.toNat + 32) else c

/-- Python `str.lower` (ASCII). -/
def pyLower (s : String) : String :=
  String.mk (s.data.map pyLowerChar)

/-- Whether `p` is a prefix of `s` (used for substring search). -/
def isPfx : List Char → List Char → Bool
  | [], _ => true
  | _ :: _, [] => false
  | a :: as, b :: bs => a == b && isPfx as bs

/-- Python `small in big` substring containment on strings. -/
def strIn (small big : List Char) : Bool :=
  match big with
  | [] => small.isEmpty
  | _ :: bs => isPfx small big || strIn small bs

/-- Python `s.replace(pat, rep)` (all non-overlapping occurrences, left to
right).  `fuel` is the length of the remaining input; every caller passes a
non-empty pattern, so one unit of fuel per consumed character suffices. -/
def replList (pat rep : List Char) : Nat → List Char → List Char
  | 0, s => s
  | _ + 1, [] => []
  | fuel + 1, c :: rest =>
    if isPfx pat (c :: rest) then rep ++ replList pat rep fuel ((c :: rest).drop pat.length)
    else c :: replList pat rep fuel rest

/-- Python `s.replace(pat, rep)` on `String`. -/
def pyReplace (s pat rep : String) : String :=
  String.mk (replList pat.data rep.data s.data.length s.data)

/-- Python `s[:n]` string slicing from the start. -/
def pyTake (s : String) (n : Nat) : String :=
  String.mk (s.data.take n)

/-- One step of Python `str.split()` with no separator: accumulate the current
word (in reverse) and cut at whitespace runs. -/
def splitWsAux : List Char → List Char → List (List Char)
  | [], cur => if cur.isEmpty then [] else [cur.reverse]
  | c :: rest, cur =>
    if pyIsSpace c then
      if cur.isEmpty then splitWsAux rest [] else cur.reverse :: splitWsAux rest []
    else splitWsAux rest (c :: cur)

/-- Python `str.split()` (split on whitespace runs, dropping empty pieces). -/
def pySplit (s : String) : List String :=
  (splitWsAux s.data []).map String.mk

/-! ## difflib.SequenceMatcher, as called by `enrich_competitors.similarity`

`SequenceMatcher(None, a, b).ratio()` with the default `autojunk=True` and no
junk predicate.  Only the total size of the matching blocks is needed for the
ratio, so the block queue of `get_matching_blocks` is rendered as a recursion
that sums the block sizes; fuel bounds the recursion depth. -/

/-- Indices of `c` in `b`, ascending (the `b2j` table of difflib). -/
def b2jIdx (b : List Char) (c : Char) : List Nat :=
  (List.range b.length).filter (fun j => b.getD j ' ' == c)

/-- The `b2j` table after the autojunk step: for `len(b) >= 200`, characters
occurring more than `len(b) // 100 + 1` times are dropped from the table. -/
def b2jOf (b : List Char) (c : Char) : List Nat :=
  let l := b2jIdx b c
  if 200 ≤ b.length ∧ b.length / 100 + 1 < l.length then [] else l

/-- Inner loop of `find_longest_match`: walk the ascending index list of
`b2j[a[i]]`, skipping `j < blo`, stopping at `j >= bhi`, building the new
`j2len` row and updating the best block. -/
def flmInner (j2len : Nat → Nat) (blo bhi i : Nat) :
    List Nat → (Nat → Nat) → Nat × Nat × Nat → ((Nat → Nat) × (Nat × Nat × Nat))
  | [], nj, best => (nj, best)
  | j :: js, nj, best =>
    if j < blo then flmInner j2len blo bhi i js nj best
    else if bhi ≤ j then (nj, best)
    else
      let k := (if j = 0 then 0 else j2len (j - 1)) + 1
      let nj2 := fun x => if x = j then k else nj x
      let best2 := if best.2.2 < k then (i + 1 - k, j + 1 - k, k) else best
      flmInner j2len blo bhi i js nj2 best2

/-- Outer loop of `find_longest_match` over `i in range(alo, ahi)`. -/
def flmOuter (a : List Char) (b2j : Char → List Nat) (blo bhi : Nat) :
    Nat → Nat → (Nat → Nat) → Nat × Nat × Nat → Nat × Nat × Nat
  | 0, _, _, best => best
  | n + 1, i, j2len, best =>
    let r := flmInner j2len blo bhi i (b2j (a.getD i ' ')) (fun _ => 0) best
    flmOuter a b2j blo bhi n (i + 1) r.1 r.2

/-- Extension of the best block to the left over equal characters (the junk
set is empty here, so the junk test of the source is vacuously true). -/
def extendLeft (a b : List Char) (alo blo : Nat) : Nat → Nat × Nat × Nat → Nat × Nat × Nat
  | 0, best => best
  | n + 1, (bi, bj, bs) =>
    if alo < bi ∧ blo < bj ∧ a.getD (bi - 1) ' ' == b.getD (bj - 1) ' ' then
      extendLeft a b alo blo n (bi - 1, bj - 1, bs + 1)
    else (bi, bj, bs)

/-- Extension of the best block to the right over equal characters. -/
def extendRight (a b : List Char) (ahi bhi : Nat) : Nat → Nat × Nat × Nat → Nat × Nat × Nat
  | 0, best => best
  | n + 1, (bi, bj, bs) =>
    if bi + bs < ahi ∧ bj + bs < bhi ∧ a.getD (bi + bs) ' ' == b.getD (bj + bs) ' ' then
      extendRight a b ahi bhi n (bi, bj, bs + 1)
    else (bi, bj, bs)

/-- `find_longest_match(alo, ahi, blo, bhi)` of difflib. -/
def findLongestMatch (a b : List Char) (b2j : Char → List Nat)
    (alo ahi blo bhi : Nat) : Nat × Nat × Nat :=
  let fuel := a.length + b.length
  let best := flmOuter a b2j blo bhi (ahi - alo) alo (fun _ => 0) (alo, blo, 0)
  extendRight a b ahi bhi fuel (extendLeft a b alo blo fuel best)

/-- Total size of the matching blocks of `get_matching_blocks` on the window
`(alo, ahi, blo, bhi)` (the queue recursion of the source, summed). -/
def matchTotal (a b : List Char) (b2j : Char → List Nat) :
    Nat → Nat × Nat × Nat × Nat → Nat
  | 0, _ => 0
  | n + 1, (alo, ahi, blo, bhi) =>
    let r := findLongestMatch a b b2j alo ahi blo bhi
    let i := r.1
    let j := r.2.1
    let k := r.2.2
    if k = 0 then 0
    else
      k + (if alo < i ∧ blo < j then matchTotal a b b2j n (alo, i, blo, j) else 0)
        + (if i + k < ahi ∧ j + k < bhi then matchTotal a b b2j n (i + k, ahi, j + k, bhi) else 0)

/-- `SequenceMatcher.ratio()`: `2 * T / (len(a) + len(b))`, and `1.0` when both
sequences are empty. -/
def ratioOf (a b : List Char) : Rat :=
  let t := matchTotal a b (b2jOf b) (a.length + b.length + 1) (0, a.length, 0, b.length)
  if a.length + b.length = 0 then 1
  else (2 * t : Rat) / ((a.length + b.length : Nat) : Rat)

/-- `enrich_competitors.similarity`: `SequenceMatcher(None, a, b).ratio()`. -/
def similarity (a b : String) : Rat :=
  ratioOf a.data b.data

/-! ## enrich_competitors.normalize_name -/

/-- Whole-word occurrence test at the head of `s`: the pattern matches
literally and both ends sit on a `\b` boundary (every pattern in the suffix
table begins and ends with a word character, so the boundary amounts to the
neighbouring characters not being word characters). -/
def wholeWordAt (p : List Char) (prev : Option Char) (s : List Char) : Bool :=
  isPfx p s &&
  (match prev with
   | none => true
   | some c => !isWordChar c) &&
  (match s.drop p.length with
   | [] => true
   | c :: _ => !isWordChar c)

/-- Python `re.sub(rf'\b{suffix}\b', '', name)` for a literal pattern: scan
left to right, deleting each whole-word occurrence.  `prev` is the character
preceding the scan position in the original string; `fuel` is the remaining
input length. -/
def subAux (p : List Char) : Nat → Option Char → List Char → List Char
  | 0, _, s => s
  | _ + 1, _, [] => []
  | fuel + 1, prev, c :: rest =>
    if wholeWordAt p prev (c :: rest) then
      subAux p fuel (some (p.getLastD c)) ((c :: rest).drop p.length)
    else
      c :: subAux p fuel (some c) rest

/-- Remove all whole-word occurrences of `p` from `s`. -/
def subWholeWord (p s : String) : String :=
  String.mk (subAux p.data s.data.length none s.data)

/-- The ordered boilerplate-suffix table of `normalize_name`. -/
def SUFFIXES : List String :=
  ["school district", "unified school district", "public schools",
   "city schools", "county schools", "independent school district",
   "isd", "usd", "sd", "ps", "unified", "schools", "school", "district",
   "elementary", "middle", "high", "academy", "k-12", "k12"]

/-- The suffix-removal loop of `normalize_name`. -/
def removeSuffixes (s : String) : String :=
  SUFFIXES.foldl (fun acc suf => subWholeWord suf acc) s

/-- Characters kept by `re.sub(r'[^a-z0-9\s]', '', name)`. -/
def keepChar (c : Char) : Bool :=
  (97 ≤ c.toNat && c.toNat ≤ 122) || (48 ≤ c.toNat && c.toNat ≤ 57) || pyIsSpace c

/-- Python `re.sub(r'[^a-z0-9\s]', '', name)`. -/
def stripBad (s : String) : String :=
  String.mk (s.data.filter keepChar)

/-- Python `re.sub(r'\s+', ' ', name)`: each whitespace run becomes a single
space; `afterSpace` records whether the previous character was whitespace. -/
def squeezeWs : Bool → List Char → List Char
  | _, [] => []
  | afterSpace, c :: rest =>
    if pyIsSpace c then
      if afterSpace then squeezeWs true rest else ' ' :: squeezeWs true rest
    else c :: squeezeWs false rest

/-- Python `str.strip()` on a character list. -/
def pyStripChars (l : List Char) : List Char :=
  (((l.dropWhile pyIsSpace).reverse.dropWhile pyIsSpace)).reverse

/-- Python `re.sub(r'\s+', ' ', name).strip()`. -/
def collapseWs (s : String) : String :=
  String.mk (pyStripChars (squeezeWs false s.data))

/-- `enrich_competitors.normalize_name`. -/
def normalize_name (s : String) : String :=
  collapseWs (stripBad (removeSuffixes (pyLower s)))

/-! ## enrich_competitors.match_subdomain_to_district -/

/-- One stored award record (an `award_details` entry). -/
structure AwardRecord where
  amount : Rat
  description : String
  program : String
  start_date : String
  year : String
deriving DecidableEq

/-- One canonical district record (a `districts.json` entry); optional JSON
fields are `Option`. -/
structure District where
  name : String
  state : String
  city : Option String := none
  website : Option String := none
  enrollment : Option Int := none
  federal_awards : Option Rat := none
  recent_awards : Option Nat := none
  award_details : Option (List AwardRecord) := none
deriving DecidableEq

/-- The match dict built by `match_subdomain_to_district`. -/
structure MatchResult where
  district : String
  state : String
  enrollment : Int
  confidence : Rat
deriving DecidableEq

/-- Python `round(x, 2)` modelled on exact rationals: round `100 * x` to the
nearest integer, ties to even, and divide back. -/
def round2 (q : Rat) : Rat :=
  let x : Rat := q * 100
  let f : Int := x.floor
  let r : Rat := x - (f : Rat)
  let n : Int :=
    if r < 1 / 2 then f
    else if 1 / 2 < r then f + 1
    else if f % 2 = 0 then f else f + 1
  (n : Rat) / 100

/-- The matcher's normalization of the incoming subdomain (strip the
`.typingclub.com` suffix, turn dashes into spaces, normalize). -/
def matcherNorm (subdomain : String) : String :=
  normalize_name (pyReplace (pyReplace subdomain ".typingclub.com" "") "-" " ")

/-- The pre-boost score of the matcher loop: `0.9` on substring containment in
either direction, otherwise the `similarity` ratio. -/
def preBoostScore (a b : String) : Rat :=
  if strIn a.data b.data || strIn b.data a.data then (9 : Rat) / 10
  else similarity a b

/-- The full candidate score of the matcher loop: pre-boost score plus `0.2`
when the candidate's lower-cased non-empty `city` occurs in the source name. -/
def districtScore (nameNorm : String) (d : District) : Rat :=
  let base := preBoostScore nameNorm (normalize_name d.name)
  let city := pyLower (d.city.getD "")
  if !city.isEmpty && strIn city.data nameNorm.data then base + (1 : Rat) / 5
  else base

/-- The match dict stored when a candidate becomes the new best. -/
def mkMatch (d : District) (score : Rat) : MatchResult :=
  { district := d.name, state := d.state,
    enrollment := d.enrollment.getD 0, confidence := round2 score }

/-- One iteration of the matcher loop over the candidate districts: the state
is `(best_match, best_score)`, updated on `score > best_score and score > 0.5`. -/
def matcherStep (nameNorm : String) (acc : Option MatchResult × Rat) (d : District) :
    Option MatchResult × Rat :=
  let score := districtScore nameNorm d
  if acc.2 < score ∧ 1 / 2 < score then (some (mkMatch d score), score) else acc

/-- `enrich_competitors.match_subdomain_to_district`. -/
def match_subdomain_to_district (subdomain : String) (districts : List District) :
    Option MatchResult :=
  let nameNorm := matcherNorm subdomain
  (districts.foldl (matcherStep nameNorm) ((none : Option MatchResult), (0 : Rat))).1

/-! ## Contact records and the contact-enrichment passes -/

/-- One contact record; every key other than `name` can be absent. -/
structure Contact where
  name : String
  title : Option String := none
  email : Option String := none
  email_guessed : Option Bool := none
  phone : Option String := none
  source : Option String := none
deriving DecidableEq

/-- The check `'superintendent' in (c.get('title') or '').lower()`. -/
def isSuptC (c : Contact) : Bool :=
  strIn "superintendent".data (pyLower (c.title.getD "")).data

/-- `enrich_contacts.main`: `has_supt = any('superintendent' in ... )`. -/
def hasSupt (contacts : List Contact) : Bool :=
  contacts.any isSuptC

/-- The contact inserted by `enrich_contacts.main` from a Ballotpedia hit. -/
def ballotpediaContact (suptName : String) (likelyEmail : Option String) : Contact :=
  { name := suptName, title := some "Superintendent", email := likelyEmail,
    email_guessed := some true, phone := none, source := some "Ballotpedia" }

/-- One district iteration of `enrich_contacts.main`: skip when a
superintendent-titled contact already exists, otherwise insert the Ballotpedia
candidate (when one was found) at position 0. -/
def enrich_contacts_step (contacts : List Contact)
    (found : Option (String × Option String)) : List Contact :=
  if hasSupt contacts then contacts
  else
    match found with
    | none => contacts
    | some (n, em) => ballotpediaContact n em :: contacts

/-- One entry of `fix_and_enrich.SUPERINTENDENT_FIXES`. -/
structure SuptFix where
  name : String
  email : String
  source : String
deriving DecidableEq

/-- The in-place overwrite of `fix_and_enrich.main` step 1 applied to one
contact: set `name`, `email`, `email_guessed = False`, `source`. -/
def applyFixTo (c : Contact) (fx : SuptFix) : Contact :=
  { c with name := fx.name, email := some fx.email,
           email_guessed := some false, source := some fx.source }

/-- `fix_and_enrich.main` step 1 for one district: find the first contact with
`title == 'Superintendent'` (exact comparison), overwrite it in place, `break`. -/
def apply_supt_fix (contacts : List Contact) (fx : SuptFix) : List Contact :=
  match contacts with
  | [] => []
  | c :: rest =>
    if c.title == some "Superintendent" then applyFixTo c fx :: rest
    else c :: apply_supt_fix rest fx

/-- One entry of `fix_and_enrich.TECH_DIRECTORS` / `CURRICULUM_DIRECTORS`. -/
structure DirEntry where
  name : String
  title : String
  email : String
deriving DecidableEq

/-- The existing-holder check of `fix_and_enrich.main` step 2:
`'technology' in t or 'cio' in t or 'cto' in t` on the lower-cased title. -/
def techCheckC (c : Contact) : Bool :=
  let t := (pyLower (c.title.getD "")).data
  strIn "technology".data t || strIn "cio".data t || strIn "cto".data t

/-- The existing-holder check of `fix_and_enrich.main` step 3:
`'curriculum' in t or 'academic' in t` on the lower-cased title. -/
def curricCheckC (c : Contact) : Bool :=
  let t := (pyLower (c.title.getD "")).data
  strIn "curriculum".data t || strIn "academic".data t

/-- The contact appended by `fix_and_enrich.main` steps 2 and 3. -/
def manualContact (e : DirEntry) : Contact :=
  { name := e.name, title := some e.title, email := some e.email,
    email_guessed := some false, phone := none, source := some "Manual research" }

/-- `fix_and_enrich.main` step 2 for one district in the table: append the
tech director only when no contact passes the tech-title check. -/
def fix_tech (contacts : List Contact) (e : DirEntry) : List Contact :=
  if (contacts.filter techCheckC).isEmpty then contacts ++ [manualContact e]
  else contacts

/-- `fix_and_enrich.main` step 3 for one district in the table: append the
curriculum director only when no contact passes the curriculum-title check. -/
def fix_curric (contacts : List Contact) (e : DirEntry) : List Contact :=
  if (contacts.filter curricCheckC).isEmpty then contacts ++ [manualContact e]
  else contacts

/-- One entry of `update_contacts_batch.NEW_CONTACTS` (all four keys present,
no `email_guessed`, no `phone`). -/
structure NewContact where
  name : String
  title : String
  email : String
  source : String
deriving DecidableEq

/-- Python `c.update(new_contact)` for a batch entry: overwrite the four keys
present in the entry, keep `email_guessed` and `phone`. -/
def ucbUpd (c : Contact) (nc : NewContact) : Contact :=
  { c with name := nc.name, title := some nc.title, email := some nc.email,
           source := some nc.source }

/-- The contact appended by `update_contacts_batch.main` (the raw batch dict:
`email_guessed` and `phone` keys absent). -/
def ucbNew (nc : NewContact) : Contact :=
  { name := nc.name, title := some nc.title, email := some nc.email,
    email_guessed := none, phone := none, source := some nc.source }

/-- The `for ... break / else` search of `update_contacts_batch.main`: update
the first contact whose `name` equals the old superintendent's, or report that
none was found. -/
def replFirstNamed (target : Option String) (nc : NewContact) :
    List Contact → Option (List Contact)
  | [] => none
  | c :: rest =>
    if some c.name == target then some (ucbUpd c nc :: rest)
    else (replFirstNamed target nc rest).map (c :: ·)

/-- One batch entry applied by `update_contacts_batch.main`; `existing` is the
name set computed once before the loop, `updates` is `none` when the district
is not in `UPDATES` and otherwise carries `UPDATES[name].get('old_superintendent')`. -/
def ucbStep (existing : List String) (updates : Option (Option String))
    (cs : List Contact) (nc : NewContact) : List Contact :=
  if existing.contains nc.name then
    cs.map (fun c => if c.name == nc.name then ucbUpd c nc else c)
  else
    match updates with
    | some oldN =>
      if nc.title == "Superintendent" then
        match replFirstNamed oldN nc cs with
        | some cs2 => cs2
        | none => cs ++ [ucbNew nc]
      else cs ++ [ucbNew nc]
    | none => cs ++ [ucbNew nc]

/-- One district iteration of `update_contacts_batch.main` over its batch of
new contacts. -/
def ucb_merge (contacts : List Contact) (newCs : List NewContact)
    (updates : Option (Option String)) : List Contact :=
  newCs.foldl (ucbStep (contacts.map (fun c => c.name)) updates) contacts

/-! ## Award fetch passes -/

/-- One raw award candidate from the award source; absent keys and JSON nulls
are both `none`. -/
structure RawAward where
  recipient : Option String := none
  amount : Option Rat := none
  description : Option String := none
  program : Option String := none
  start_date : Option String := none
deriving DecidableEq

/-- The stored record of `fetch_all_awards.main`: amount defaulted to 0,
description truncated to 200 characters, fixed year window. -/
def faRecord (r : RawAward) : AwardRecord :=
  { amount := r.amount.getD 0, description := pyTake (r.description.getD "") 200,
    program := r.program.getD "", start_date := r.start_date.getD "",
    year := "2023-2026" }

/-- The field overwrite of `fetch_all_awards.main` on a non-empty matching
batch: total over all matching awards, count, details from the top 10. -/
def award_update_all (d : District) (matching : List RawAward) : District :=
  { d with federal_awards := some ((matching.map (fun r => r.amount.getD 0)).sum),
           recent_awards := some matching.length,
           award_details := some ((matching.take 10).map faRecord) }

/-- The stored record of `fetch_recent_awards.main`: description NOT truncated,
year window `2024-2025`. -/
def ruRecord (r : RawAward) : AwardRecord :=
  { amount := r.amount.getD 0, description := r.description.getD "",
    program := r.program.getD "", start_date := r.start_date.getD "",
    year := "2024-2025" }

/-- The field overwrite of `fetch_recent_awards.main` on a non-empty matching
batch: details and total from the first 5 matching awards only, count of all. -/
def award_update_recent (d : District) (matching : List RawAward) : District :=
  { d with federal_awards := some (((matching.take 5).map (fun r => r.amount.getD 0)).sum),
           recent_awards := some matching.length,
           award_details := some ((matching.take 5).map ruRecord) }

/-- The search-term simplification of `fetch_all_awards.main`. -/
def fa_search_term (name : String) : String :=
  pyReplace (pyReplace (pyReplace name " School District" "") " Public Schools" "") " County" ""

/-- The match filter of `fetch_all_awards.main`: keep results whose lower-cased
recipient name contains the leading word `w` of the search term. -/
def fa_matching (w : String) (results : List RawAward) : List RawAward :=
  results.filter (fun r => strIn w.data (pyLower (r.recipient.getD "")).data)

/-- One district iteration of `fetch_all_awards.main` given the fetch outcome
(`search_awards` catches its own exceptions and returns `[]`).  `none` models
the `IndexError` raised by `search_term.lower().split()[0]` on a wordless
search term when there are results to filter. -/
def fa_process (d : District) (results : List RawAward) : Option District :=
  if results.isEmpty then some d
  else
    match pySplit (pyLower (fa_search_term d.name)) with
    | [] => none
    | w :: _ =>
      let matching := fa_matching w results
      if matching.isEmpty then some d else some (award_update_all d matching)

/-! ## Snapshot saves -/

/-- The files written by the enrichment passes. -/
inductive SaveLoc where
  | canonicalSnapshot
  | docsMirror
  | edclubEnriched
deriving DecidableEq

/-- The write list of the shared `save_districts(data)` helper: the canonical
`data/districts.json` and the mirror `docs/data.json`, same payload. -/
def save_districts_writes {α : Type} (data : α) : List (SaveLoc × α) :=
  [(SaveLoc.canonicalSnapshot, data), (SaveLoc.docsMirror, data)]

/-- The write list of `enrich_competitors.main`: `data/edclub_enriched.json`
and `data/districts.json`, and no write to `docs/data.json`. -/
def enrich_competitors_writes {α : Type} (output districtsOutput : α) :
    List (SaveLoc × α) :=
  [(SaveLoc.edclubEnriched, output), (SaveLoc.canonicalSnapshot, districtsOutput)]

end TCProspects


namespace TCProspects

/-! ## Shared lemmas -/

theorem isPfx_refl (l : List Char) : isPfx l l = true := by
  induction l with
  | nil => rfl
  | cons c cs ih => simp [isPfx, ih]

theorem strIn_refl (l : List Char) : strIn l l = true := by
  cases l with
  | nil => rfl
  | cons c cs => simp [strIn, isPfx_refl]

/-! ## C5 -/

/-- C5 counterexample: on the concrete non-empty normalized string `"abc"`,
the matcher's pre-boost score of the string with itself is not `1.0` (the
substring-containment override fires and yields `0.9`). -/
theorem identical_score_cex :
    preBoostScore "abc" "abc" = (9 : Rat) / 10 ∧
    ¬ preBoostScore "abc" "abc" = 1 ∧ "abc" ≠ "" := by
  have hc : (strIn "abc".data "abc".data || strIn "abc".data "abc".data) = true := by decide
  have hv : preBoostScore "abc" "abc" = (9 : Rat) / 10 := by
    unfold preBoostScore
    rw [hc]
    simp
  refine ⟨hv, ?_, by decide⟩
  rw [hv]
  norm_num

/-- C5 amended: for every string `a` (normalized or not, empty or not), the
matcher's pre-boost score of `a` against itself is exactly `0.9`, because
identical strings always satisfy the substring-containment override, which
takes precedence over the base similarity ratio. -/
theorem identical_preboost_score (a : String) :
    preBoostScore a a = (9 : Rat) / 10 := by
  simp [preBoostScore, strIn_refl]

/-! ## C7 -/

/-- C7 (code bug): the shared `save_districts` helper writes the canonical
snapshot and the docs mirror with the identical payload, but
`enrich_competitors.main` writes the enriched-competitor file and the
canonical snapshot only — no write to the docs mirror appears in its write
list, so that pass updates the canonical snapshot without the mirror. -/
theorem snapshot_mirror_writes_spec {α : Type} (data output districtsOutput : α) :
    save_districts_writes data =
      [(SaveLoc.canonicalSnapshot, data), (SaveLoc.docsMirror, data)] ∧
    (enrich_competitors_writes output districtsOutput).map Prod.fst =
      [SaveLoc.edclubEnriched, SaveLoc.canonicalSnapshot] :=
  ⟨rfl, rfl⟩

/-! ## C3 -/

/-- C3 counterexample: with a matching batch of 11 awards, the full-award
pass stores only the first 10 records in `award_details`, so the stored
details are not the whole batch; and with a batch of 6 awards of amount 1,
the recent-award pass stores `federal_awards = 5`, not the batch total 6. -/
theorem award_replace_cap_cex :
    (award_update_all
        { name := "D", state := "WA", federal_awards := some 500,
          award_details := some [{ amount := 500, description := "A", program := "",
                                   start_date := "", year := "2023-2026" }] }
        (List.replicate 11 ({ recipient := some "x", amount := some 1 } : RawAward))).award_details ≠
      some ((List.replicate 11 ({ recipient := some "x", amount := some 1 } : RawAward)).map faRecord) ∧
    (award_update_recent { name := "D", state := "WA" }
        (List.replicate 6 ({ recipient := some "x", amount := some 1 } : RawAward))).federal_awards ≠
      some (((List.replicate 6 ({ recipient := some "x", amount := some 1 } : RawAward)).map
        (fun r => r.amount.getD 0)).sum) := by
  constructor
  · intro h
    have h2 := congrArg (fun o => (o.getD ([] : List AwardRecord)).length) h
    simp [award_update_all, List.length_take] at h2
  · intro h
    simp only [award_update_recent, Option.some.injEq] at h
    rw [List.take_replicate] at h
    simp [List.map_replicate, List.sum_replicate] at h

/-- C3 amended: award enrichment is a full replace of the three award fields
from the new batch alone — for any prior district state, a non-empty matching
batch sets `federal_awards` to the sum of all matching amounts,
`recent_awards` to the matching count, and `award_details` to exactly the
first 10 matching records (the recent-award pass stores the first 5 records
and sums only those 5); nothing of the previously stored award data survives,
as the new field values depend only on the batch. -/
theorem award_full_replace_spec (d : District) (matching : List RawAward)
    (_hm : matching ≠ []) :
    ((award_update_all d matching).federal_awards =
        some ((matching.map (fun r => r.amount.getD 0)).sum) ∧
     (award_update_all d matching).recent_awards = some matching.length ∧
     (award_update_all d matching).award_details = some ((matching.take 10).map faRecord)) ∧
    ((award_update_recent d matching).federal_awards =
        some (((matching.take 5).map (fun r => r.amount.getD 0)).sum) ∧
     (award_update_recent d matching).recent_awards = some matching.length ∧
     (award_update_recent d matching).award_details = some ((matching.take 5).map ruRecord)) :=
  ⟨⟨rfl, rfl, rfl⟩, ⟨rfl, rfl, rfl⟩⟩

/-- C3 witness: the full-replace theorem applied to a concrete one-award
batch. -/
theorem award_full_replace_spec_witness :
    (award_update_all { name := "D", state := "WA" }
        [({ recipient := some "x", amount := some 2 } : RawAward)]).federal_awards =
      some (([({ recipient := some "x", amount := some 2 } : RawAward)].map
        (fun r => r.amount.getD 0)).sum) :=
  (award_full_replace_spec { name := "D", state := "WA" }
    [({ recipient := some "x", amount := some 2 } : RawAward)] (by decide)).1.1

/-! ## C9 -/

set_option maxRecDepth 8000 in
/-- C9 counterexample: the recent-award pass stores the raw description — a
201-character description reaches `award_details` untruncated. -/
theorem description_truncation_cex :
    ¬ (∀ r ∈ ((award_update_recent { name := "D", state := "WA" }
        [{ recipient := some "x", amount := some 5,
           description := some (String.mk (List.replicate 201 'a')) }]).award_details.getD []),
        r.description.length ≤ 200) := by decide

/-- C9 amended: the full-award pass truncates every stored description to at
most 200 characters; the recent-award pass stores descriptions untruncated. -/
theorem description_truncation_all_pass (d : District) (matching : List RawAward) :
    ∀ r ∈ ((award_update_all d matching).award_details.getD []),
      r.description.length ≤ 200 := by
  intro r hr
  have hdet : ((award_update_all d matching).award_details.getD []) =
      (matching.take 10).map faRecord := rfl
  rw [hdet] at hr
  obtain ⟨x, _, rfl⟩ := List.mem_map.mp hr
  show (List.take 200 (x.description.getD "").data).length ≤ 200
  simp [List.length_take]

/-- C9 witness: the truncation theorem applied to a concrete one-award batch. -/
theorem description_truncation_all_pass_witness :
    (faRecord ({ recipient := some "x", amount := some 5,
                 description := some "short" } : RawAward)).description.length ≤ 200 :=
  description_truncation_all_pass { name := "D", state := "WA" }
    [({ recipient := some "x", amount := some 5, description := some "short" } : RawAward)]
    (faRecord ({ recipient := some "x", amount := some 5,
                 description := some "short" } : RawAward)) (by decide)

/-! ## C10 -/

/-- C10: the full-award pass leaves a district exactly unchanged when the
fetch produced no results (which is also how `search_awards` reports an
exception) or when no result's lower-cased recipient name contains the
leading word of the simplified search term. -/
theorem award_pass_frame_spec (d : District) (results : List RawAward) :
    (results = [] → fa_process d results = some d) ∧
    (∀ w ws, pySplit (pyLower (fa_search_term d.name)) = w :: ws →
      (∀ r ∈ results, strIn w.data (pyLower (r.recipient.getD "")).data = false) →
      fa_process d results = some d) := by
  constructor
  · rintro rfl; rfl
  · intro w ws hsplit hnone
    unfold fa_process
    cases hres : results.isEmpty with
    | true => simp [hres]
    | false =>
      rw [if_neg (by simp [hres]), hsplit]
      have hfil : fa_matching w results = [] := by
        unfold fa_matching
        refine List.filter_eq_nil_iff.mpr ?_
        intro a ha
        simp [hnone a ha]
      simp [hfil]

/-- C10 witness: the frame theorem applied to a concrete district and a
concrete non-matching result list. -/
theorem award_pass_frame_spec_witness :
    fa_process { name := "Testville School District", state := "WA" }
      [{ recipient := some "nothing" }] =
    some { name := "Testville School District", state := "WA" } :=
  (award_pass_frame_spec { name := "Testville School District", state := "WA" }
    [{ recipient := some "nothing" }]).2 "testville" [] (by decide) (by decide)

end TCProspects

namespace TCProspects

/-! ## C2 -/

/-- C2: when a district already holds a superintendent-titled contact, the
Ballotpedia enrichment pass (which merges the lower-provenance
`email_guessed = true` candidate) leaves the contacts list exactly unchanged;
and the higher-provenance superintendent fix overwrites the first
`title = 'Superintendent'` contact's name, email, `email_guessed` and source
in place, preserving its position and every other contact. -/
theorem superintendent_provenance_spec :
    (∀ (contacts : List Contact) (found : Option (String × Option String)),
        hasSupt contacts = true → enrich_contacts_step contacts found = contacts) ∧
    (∀ (pre : List Contact) (c : Contact) (post : List Contact) (fx : SuptFix),
        (∀ e ∈ pre, ¬ e.title = some "Superintendent") →
        c.title = some "Superintendent" →
        apply_supt_fix (pre ++ c :: post) fx = pre ++ applyFixTo c fx :: post) := by
  constructor
  · intro contacts found h
    simp [enrich_contacts_step, h]
  · intro pre c post fx hpre hc
    induction pre with
    | nil => simp [apply_supt_fix, hc]
    | cons e rest ih =>
      have he : ¬ e.title = some "Superintendent" := hpre e (by simp)
      have hrest : ∀ x ∈ rest, ¬ x.title = some "Superintendent" :=
        fun x hx => hpre x (by simp [hx])
      simp [apply_supt_fix, he, ih hrest]

/-- C2 witness: the provenance theorem applied to a concrete manual-research
superintendent (left unchanged by a guessed candidate) and a concrete
guessed superintendent (overwritten in place by the verified fix). -/
theorem superintendent_provenance_spec_witness :
    enrich_contacts_step
        [{ name := "Jane Manual", title := some "Superintendent",
           email := some "jm@d.org", email_guessed := some false,
           source := some "Manual research" }] (some ("Guess Person", some "gp@d.org")) =
      [{ name := "Jane Manual", title := some "Superintendent",
         email := some "jm@d.org", email_guessed := some false,
         source := some "Manual research" }] ∧
    apply_supt_fix
        [{ name := "Old Guess", title := some "Superintendent",
           email := some "og@d.org", email_guessed := some true,
           source := some "Ballotpedia" }]
        { name := "Joshua Garcia", email := "jgarcia@tacoma.k12.wa.us",
          source := "District website" } =
      [applyFixTo
        { name := "Old Guess", title := some "Superintendent",
          email := some "og@d.org", email_guessed := some true,
          source := some "Ballotpedia" }
        { name := "Joshua Garcia", email := "jgarcia@tacoma.k12.wa.us",
          source := "District website" }] := by
  constructor
  · exact superintendent_provenance_spec.1 _ _ (by decide)
  · exact superintendent_provenance_spec.2 [] _ [] _ (by simp) rfl

/-! ## C8 -/

/-- C8 counterexample: the tech-director merge of `fix_and_enrich` is not
idempotent for the table's own 'Chief Information Officer' entries — the
existence check looks only for 'technology'/'cio'/'cto' in the stored title,
misses 'Chief Information Officer', and a second application appends a
duplicate contact. -/
theorem merge_idempotence_cex :
    fix_tech (fix_tech [] { name := "David Brummett", title := "Chief Information Officer",
                            email := "david.brummett@lausd.net" })
        { name := "David Brummett", title := "Chief Information Officer",
          email := "david.brummett@lausd.net" } ≠
      fix_tech [] { name := "David Brummett", title := "Chief Information Officer",
                    email := "david.brummett@lausd.net" } := by decide

/-- Names of a contact list (the `existing_names` set of the batch-update
pass, kept as a list). -/
def contactNames (cs : List Contact) : List String :=
  cs.map (fun c => c.name)

theorem containsS_iff (l : List String) (a : String) : l.contains a = true ↔ a ∈ l :=
  List.elem_iff

theorem ucbUpd_idem (c : Contact) (nc : NewContact) :
    ucbUpd (ucbUpd c nc) nc = ucbUpd c nc := rfl

theorem ucbUpd_new (nc : NewContact) : ucbUpd (ucbNew nc) nc = ucbNew nc := rfl

theorem contactNames_append (cs ds : List Contact) :
    contactNames (cs ++ ds) = contactNames cs ++ contactNames ds :=
  List.map_append _ cs ds

theorem mem_contactNames {c : Contact} {cs : List Contact} (h : c ∈ cs) :
    c.name ∈ contactNames cs :=
  List.mem_map_of_mem _ h

/-- Fold invariant for one batch-update run: `E` is the name list computed
before the loop and `done` the processed prefix of the batch.  (a) every
initial name other than the configured old-superintendent name is still
present; (b) every contact is named by an initial name or by a processed
entry; (c) every processed entry's name is present and every contact carrying
it already holds that entry's fields. -/
def UcbInv (E : List String) (updates : Option (Option String))
    (done : List NewContact) (cs : List Contact) : Prop :=
  (∀ n ∈ E, (∀ o : String, updates = some (some o) → n ≠ o) → n ∈ contactNames cs) ∧
  (∀ c ∈ cs, c.name ∈ E ∨ c.name ∈ done.map (fun x => x.name)) ∧
  (∀ nc ∈ done, nc.name ∈ contactNames cs ∧
    ∀ c ∈ cs, c.name = nc.name → ucbUpd c nc = c)

theorem replFirst_none_target (nc : NewContact) :
    ∀ cs : List Contact, replFirstNamed none nc cs = none := by
  intro cs
  induction cs with
  | nil => rfl
  | cons c rest ih =>
    have hc : (some c.name == (none : Option String)) = false := rfl
    simp [replFirstNamed, hc, ih]

theorem replFirst_some_split (o : String) (nc : NewContact) :
    ∀ (cs cs2 : List Contact), replFirstNamed (some o) nc cs = some cs2 →
      ∃ u cm v, cs = u ++ cm :: v ∧ cm.name = o ∧ cs2 = u ++ ucbUpd cm nc :: v := by
  intro cs
  induction cs with
  | nil =>
    intro cs2 h
    cases h
  | cons c rest ih =>
    intro cs2 h
    by_cases hc : (some c.name == some o) = true
    · simp only [replFirstNamed] at h
      rw [if_pos hc] at h
      have hceq : c.name = o := Option.some.inj (beq_iff_eq.mp hc)
      refine ⟨[], c, rest, rfl, hceq, ?_⟩
      exact (Option.some.inj h).symm
    · simp only [replFirstNamed] at h
      rw [if_neg hc] at h
      cases hr : replFirstNamed (some o) nc rest with
      | none =>
        rw [hr] at h
        cases h
      | some rest2 =>
        rw [hr] at h
        simp only [Option.map_some'] at h
        have hcs : c :: rest2 = cs2 := Option.some.inj h
        obtain ⟨u, cm, v, h1, h2, h3⟩ := ih rest2 hr
        refine ⟨c :: u, cm, v, ?_, h2, ?_⟩
        · rw [h1]
          rfl
        · rw [← hcs, h3]
          rfl

theorem ucbStep_inv_append (E : List String) (updates : Option (Option String))
    (done : List NewContact) (cs : List Contact) (nc : NewContact)
    (hE : nc.name ∉ E)
    (hnc : nc.name ∉ done.map (fun x => x.name))
    (h : UcbInv E updates done cs) :
    UcbInv E updates (done ++ [nc]) (cs ++ [ucbNew nc]) := by
  obtain ⟨ha, hb, hc⟩ := h
  refine ⟨?_, ?_, ?_⟩
  · intro n hn hcond
    rw [contactNames_append]
    exact List.mem_append_left _ (ha n hn hcond)
  · intro c hcm
    rcases List.mem_append.mp hcm with h1 | h1
    · rcases hb c h1 with h2 | h2
      · exact Or.inl h2
      · refine Or.inr ?_
        rw [List.map_append]
        exact List.mem_append_left _ h2
    · have hceq : c = ucbNew nc := by simpa using h1
      subst hceq
      refine Or.inr ?_
      rw [List.map_append]
      refine List.mem_append_right _ ?_
      simp [ucbNew]
  · intro nc2 hnc2
    rcases List.mem_append.mp hnc2 with h1 | h1
    · obtain ⟨hm, hf⟩ := hc nc2 h1
      refine ⟨by rw [contactNames_append]; exact List.mem_append_left _ hm, ?_⟩
      intro c hcm hname
      rcases List.mem_append.mp hcm with h2 | h2
      · exact hf c h2 hname
      · exfalso
        have hceq : c = ucbNew nc := by simpa using h2
        subst hceq
        have hname2 : nc.name = nc2.name := hname
        have hmm : nc2.name ∈ done.map (fun x => x.name) := List.mem_map_of_mem _ h1
        rw [← hname2] at hmm
        exact hnc hmm
    · have he : nc = nc2 := (show nc2 = nc by simpa using h1).symm
      subst he
      refine ⟨?_, ?_⟩
      · rw [contactNames_append]
        refine List.mem_append_right _ ?_
        simp [contactNames, ucbNew]
      · intro c hcm hname
        rcases List.mem_append.mp hcm with h2 | h2
        · exfalso
          rcases hb c h2 with h3 | h3
          · rw [hname] at h3
            exact hE h3
          · rw [hname] at h3
            exact hnc h3
        · have hceq : c = ucbNew nc := by simpa using h2
          subst hceq
          exact ucbUpd_new nc

theorem contactNames_map_upd (cs : List Contact) (nc : NewContact) :
    contactNames (cs.map (fun c => if c.name == nc.name then ucbUpd c nc else c)) =
      contactNames cs := by
  unfold contactNames
  rw [List.map_map]
  refine List.map_congr_left ?_
  intro c _
  show (if c.name == nc.name then ucbUpd c nc else c).name = c.name
  by_cases hcc : (c.name == nc.name) = true
  · rw [if_pos hcc]
    exact (beq_iff_eq.mp hcc).symm
  · rw [if_neg hcc]

theorem ucbStep_inv_upd (E : List String) (updates : Option (Option String))
    (done : List NewContact) (cs : List Contact) (nc : NewContact)
    (hEm : nc.name ∈ E)
    (holdnc : ∀ o : String, updates = some (some o) → nc.name ≠ o)
    (hnc : nc.name ∉ done.map (fun x => x.name))
    (h : UcbInv E updates done cs) :
    UcbInv E updates (done ++ [nc])
      (cs.map (fun c => if c.name == nc.name then ucbUpd c nc else c)) := by
  obtain ⟨ha, hb, hc⟩ := h
  have hnames := contactNames_map_upd cs nc
  refine ⟨?_, ?_, ?_⟩
  · intro n hn hcond
    rw [hnames]
    exact ha n hn hcond
  · intro c hcm
    obtain ⟨d, hd, rfl⟩ := List.mem_map.mp hcm
    by_cases hcc : (d.name == nc.name) = true
    · rw [if_pos hcc]
      have hne : (ucbUpd d nc).name = d.name := (beq_iff_eq.mp hcc).symm
      rw [hne]
      rcases hb d hd with h2 | h2
      · exact Or.inl h2
      · exact Or.inr (by rw [List.map_append]; exact List.mem_append_left _ h2)
    · rw [if_neg hcc]
      rcases hb d hd with h2 | h2
      · exact Or.inl h2
      · exact Or.inr (by rw [List.map_append]; exact List.mem_append_left _ h2)
  · intro nc2 hnc2
    rcases List.mem_append.mp hnc2 with h1 | h1
    · obtain ⟨hm, hf⟩ := hc nc2 h1
      refine ⟨by rw [hnames]; exact hm, ?_⟩
      intro c hcm hname
      obtain ⟨d, hd, rfl⟩ := List.mem_map.mp hcm
      by_cases hcc : (d.name == nc.name) = true
      · exfalso
        rw [if_pos hcc] at hname
        have hname2 : nc.name = nc2.name := hname
        have hmm : nc2.name ∈ done.map (fun x => x.name) := List.mem_map_of_mem _ h1
        rw [← hname2] at hmm
        exact hnc hmm
      · rw [if_neg hcc] at hname ⊢
        exact hf d hd hname
    · have he : nc = nc2 := (show nc2 = nc by simpa using h1).symm
      subst he
      refine ⟨?_, ?_⟩
      · rw [hnames]
        exact ha nc.name hEm holdnc
      · intro c hcm hname
        obtain ⟨d, hd, rfl⟩ := List.mem_map.mp hcm
        by_cases hcc : (d.name == nc.name) = true
        · rw [if_pos hcc] at hname ⊢
          exact ucbUpd_idem d nc
        · exfalso
          rw [if_neg hcc] at hname
          exact hcc (beq_iff_eq.mpr hname)

theorem ucbStep_inv_repl (E : List String) (o : String)
    (done : List NewContact) (u v : List Contact) (cm : Contact) (nc : NewContact)
    (hE : nc.name ∉ E)
    (hnc : nc.name ∉ done.map (fun x => x.name))
    (hone : o ∉ done.map (fun x => x.name))
    (hmname : cm.name = o)
    (h : UcbInv E (some (some o)) done (u ++ cm :: v)) :
    UcbInv E (some (some o)) (done ++ [nc]) (u ++ ucbUpd cm nc :: v) := by
  obtain ⟨ha, hb, hc⟩ := h
  have hnames1 : contactNames (u ++ cm :: v) = contactNames u ++ o :: contactNames v := by
    simp [contactNames, hmname]
  have hnames2 : contactNames (u ++ ucbUpd cm nc :: v) =
      contactNames u ++ nc.name :: contactNames v := by
    simp [contactNames, ucbUpd]
  refine ⟨?_, ?_, ?_⟩
  · intro n hn hcond
    have hno : n ≠ o := hcond o rfl
    have h1 := ha n hn hcond
    rw [hnames1] at h1
    rw [hnames2]
    rcases List.mem_append.mp h1 with h2 | h2
    · exact List.mem_append_left _ h2
    · rcases List.mem_cons.mp h2 with h3 | h3
      · exact absurd h3 hno
      · exact List.mem_append_right _ (List.mem_cons_of_mem _ h3)
  · intro c hcm
    rcases List.mem_append.mp hcm with h1 | h1
    · rcases hb c (List.mem_append_left _ h1) with h2 | h2
      · exact Or.inl h2
      · exact Or.inr (by rw [List.map_append]; exact List.mem_append_left _ h2)
    · rcases List.mem_cons.mp h1 with h2 | h2
      · subst h2
        refine Or.inr ?_
        rw [List.map_append]
        refine List.mem_append_right _ ?_
        simp [ucbUpd]
      · rcases hb c (List.mem_append_right _ (List.mem_cons_of_mem _ h2)) with h3 | h3
        · exact Or.inl h3
        · exact Or.inr (by rw [List.map_append]; exact List.mem_append_left _ h3)
  · intro nc2 hnc2
    rcases List.mem_append.mp hnc2 with h1 | h1
    · obtain ⟨hm, hf⟩ := hc nc2 h1
      have hne : nc2.name ≠ o := by
        intro hh
        apply hone
        rw [← hh]
        exact List.mem_map_of_mem _ h1
      refine ⟨?_, ?_⟩
      · rw [hnames1] at hm
        rw [hnames2]
        rcases List.mem_append.mp hm with h2 | h2
        · exact List.mem_append_left _ h2
        · rcases List.mem_cons.mp h2 with h3 | h3
          · exact absurd h3 hne
          · exact List.mem_append_right _ (List.mem_cons_of_mem _ h3)
      · intro c hcm hname
        rcases List.mem_append.mp hcm with h2 | h2
        · exact hf c (List.mem_append_left _ h2) hname
        · rcases List.mem_cons.mp h2 with h3 | h3
          · exfalso
            subst h3
            have hname2 : nc.name = nc2.name := hname
            have hmm : nc2.name ∈ done.map (fun x => x.name) := List.mem_map_of_mem _ h1
            rw [← hname2] at hmm
            exact hnc hmm
          · exact hf c (List.mem_append_right _ (List.mem_cons_of_mem _ h3)) hname
    · have he : nc = nc2 := (show nc2 = nc by simpa using h1).symm
      subst he
      refine ⟨?_, ?_⟩
      · rw [hnames2]
        exact List.mem_append_right _ (List.mem_cons_self _ _)
      · intro c hcm hname
        rcases List.mem_append.mp hcm with h2 | h2
        · exfalso
          rcases hb c (List.mem_append_left _ h2) with h3 | h3
          · rw [hname] at h3
            exact hE h3
          · rw [hname] at h3
            exact hnc h3
        · rcases List.mem_cons.mp h2 with h3 | h3
          · subst h3
            exact ucbUpd_idem cm nc
          · exfalso
            rcases hb c (List.mem_append_right _ (List.mem_cons_of_mem _ h3)) with h4 | h4
            · rw [hname] at h4
              exact hE h4
            · rw [hname] at h4
              exact hnc h4

theorem ucbStep_eq_upd (E : List String) (updates : Option (Option String))
    (cs : List Contact) (nc : NewContact) (hE : E.contains nc.name = true) :
    ucbStep E updates cs nc =
      cs.map (fun c => if c.name == nc.name then ucbUpd c nc else c) := by
  unfold ucbStep
  rw [if_pos hE]

theorem ucbStep_eq_new_none (E : List String) (cs : List Contact) (nc : NewContact)
    (hE : E.contains nc.name = false) :
    ucbStep E none cs nc = cs ++ [ucbNew nc] := by
  unfold ucbStep
  rw [if_neg (by simp only [hE]; decide)]

theorem ucbStep_eq_new_title (E : List String) (oldN : Option String)
    (cs : List Contact) (nc : NewContact)
    (hE : E.contains nc.name = false)
    (ht : ¬ ((nc.title == "Superintendent") = true)) :
    ucbStep E (some oldN) cs nc = cs ++ [ucbNew nc] := by
  unfold ucbStep
  rw [if_neg (by simp only [hE]; decide)]
  show (if (nc.title == "Superintendent") = true
      then
        match replFirstNamed oldN nc cs with
        | some cs3 => cs3
        | none => cs ++ [ucbNew nc]
      else cs ++ [ucbNew nc]) = cs ++ [ucbNew nc]
  rw [if_neg ht]

theorem ucbStep_eq_found (E : List String) (oldN : Option String)
    (cs cs2 : List Contact) (nc : NewContact)
    (hE : E.contains nc.name = false)
    (ht : (nc.title == "Superintendent") = true)
    (hr : replFirstNamed oldN nc cs = some cs2) :
    ucbStep E (some oldN) cs nc = cs2 := by
  unfold ucbStep
  rw [if_neg (by simp only [hE]; decide)]
  show (if (nc.title == "Superintendent") = true
      then
        match replFirstNamed oldN nc cs with
        | some cs3 => cs3
        | none => cs ++ [ucbNew nc]
      else cs ++ [ucbNew nc]) = cs2
  rw [if_pos ht, hr]

theorem ucbStep_eq_miss (E : List String) (oldN : Option String)
    (cs : List Contact) (nc : NewContact)
    (hE : E.contains nc.name = false)
    (ht : (nc.title == "Superintendent") = true)
    (hr : replFirstNamed oldN nc cs = none) :
    ucbStep E (some oldN) cs nc = cs ++ [ucbNew nc] := by
  unfold ucbStep
  rw [if_neg (by simp only [hE]; decide)]
  show (if (nc.title == "Superintendent") = true
      then
        match replFirstNamed oldN nc cs with
        | some cs3 => cs3
        | none => cs ++ [ucbNew nc]
      else cs ++ [ucbNew nc]) = cs ++ [ucbNew nc]
  rw [if_pos ht, hr]

theorem ucbStep_inv (E : List String) (updates : Option (Option String))
    (done : List NewContact) (cs : List Contact) (nc : NewContact)
    (hnc : nc.name ∉ done.map (fun x => x.name))
    (hold : ∀ o : String, updates = some (some o) →
      o ≠ nc.name ∧ o ∉ done.map (fun x => x.name))
    (h : UcbInv E updates done cs) :
    UcbInv E updates (done ++ [nc]) (ucbStep E updates cs nc) := by
  cases hE : E.contains nc.name with
  | true =>
    have hEm : nc.name ∈ E := (containsS_iff E nc.name).mp hE
    rw [ucbStep_eq_upd E updates cs nc hE]
    exact ucbStep_inv_upd E updates done cs nc hEm
      (fun o ho => (hold o ho).1.symm) hnc h
  | false =>
    have hEnm : nc.name ∉ E := by
      intro hm
      rw [(containsS_iff E nc.name).mpr hm] at hE
      cases hE
    cases updates with
    | none =>
      rw [ucbStep_eq_new_none E cs nc hE]
      exact ucbStep_inv_append E none done cs nc hEnm hnc h
    | some oldN =>
      by_cases ht : (nc.title == "Superintendent") = true
      · cases oldN with
        | none =>
          rw [ucbStep_eq_miss E none cs nc hE ht (replFirst_none_target nc cs)]
          exact ucbStep_inv_append E (some none) done cs nc hEnm hnc h
        | some o =>
          cases hr : replFirstNamed (some o) nc cs with
          | none =>
            rw [ucbStep_eq_miss E (some o) cs nc hE ht hr]
            exact ucbStep_inv_append E (some (some o)) done cs nc hEnm hnc h
          | some cs2 =>
            rw [ucbStep_eq_found E (some o) cs cs2 nc hE ht hr]
            obtain ⟨u, cm, v, hsplit, hmn, hcs2⟩ := replFirst_some_split o nc cs cs2 hr
            rw [hcs2]
            subst hsplit
            exact ucbStep_inv_repl E o done u v cm nc hEnm hnc (hold o rfl).2 hmn h
      · rw [ucbStep_eq_new_title E oldN cs nc hE ht]
        exact ucbStep_inv_append E (some oldN) done cs nc hEnm hnc h

theorem ucb_fold_inv (E : List String) (updates : Option (Option String)) :
    ∀ (todo done : List NewContact) (cs : List Contact),
      ((done ++ todo).map (fun x => x.name)).Nodup →
      (∀ o : String, updates = some (some o) → o ∉ (done ++ todo).map (fun x => x.name)) →
      UcbInv E updates done cs →
      UcbInv E updates (done ++ todo) (todo.foldl (ucbStep E updates) cs) := by
  intro todo
  induction todo with
  | nil =>
    intro done cs _ _ h
    simpa using h
  | cons nc todo ih =>
    intro done cs hnd hold h
    have hmap : (done ++ nc :: todo).map (fun x => x.name) =
        done.map (fun x => x.name) ++ nc.name :: todo.map (fun x => x.name) := by
      simp
    have hnc : nc.name ∉ done.map (fun x => x.name) := by
      rw [hmap] at hnd
      have h1 := List.nodup_middle.mp hnd
      have h2 := (List.nodup_cons.mp h1).1
      intro hmem
      exact h2 (List.mem_append_left _ hmem)
    have holdnc : ∀ o : String, updates = some (some o) →
        o ≠ nc.name ∧ o ∉ done.map (fun x => x.name) := by
      intro o ho
      have hno := hold o ho
      rw [hmap] at hno
      constructor
      · intro hh
        refine hno (List.mem_append_right _ ?_)
        rw [hh]
        exact List.mem_cons_self _ _
      · intro hh
        exact hno (List.mem_append_left _ hh)
    have hstep := ucbStep_inv E updates done cs nc hnc holdnc h
    have hassoc : (done ++ [nc]) ++ todo = done ++ nc :: todo := by
      rw [List.append_assoc]
      rfl
    have hnd2 : (((done ++ [nc]) ++ todo).map (fun x => x.name)).Nodup := by
      rw [hassoc]
      exact hnd
    have hold2 : ∀ o : String, updates = some (some o) →
        o ∉ ((done ++ [nc]) ++ todo).map (fun x => x.name) := by
      intro o ho
      rw [hassoc]
      exact hold o ho
    have hih := ih (done ++ [nc]) (ucbStep E updates cs nc) hnd2 hold2 hstep
    rw [hassoc] at hih
    rw [List.foldl_cons]
    exact hih

theorem ucb_steps_id (E : List String) (updates : Option (Option String)) :
    ∀ (todo : List NewContact) (cs : List Contact),
      (∀ nc ∈ todo, nc.name ∈ E ∧ ∀ c ∈ cs, c.name = nc.name → ucbUpd c nc = c) →
      todo.foldl (ucbStep E updates) cs = cs := by
  intro todo
  induction todo with
  | nil =>
    intro cs _
    rfl
  | cons nc todo ih =>
    intro cs h
    obtain ⟨hmem, hfld⟩ := h nc (List.mem_cons_self nc todo)
    have hcont : E.contains nc.name = true := (containsS_iff E nc.name).mpr hmem
    have hstep : ucbStep E updates cs nc = cs := by
      unfold ucbStep
      rw [if_pos hcont]
      refine (List.map_congr_left ?_).trans (List.map_id cs)
      intro c hcm
      show (if c.name == nc.name then ucbUpd c nc else c) = id c
      by_cases hcc : (c.name == nc.name) = true
      · rw [if_pos hcc]
        exact hfld c hcm (beq_iff_eq.mp hcc)
      · rw [if_neg hcc]
        rfl
    rw [List.foldl_cons, hstep]
    exact ih cs (fun nc2 h2 => h nc2 (List.mem_cons_of_mem nc h2))

/-- C8 amended: contact-merge idempotence holds for the Ballotpedia
superintendent merge and the superintendent fix unconditionally; for the
batch-update merge whenever the batch's contact names are pairwise distinct
and the configured old-superintendent name is not among them (both true of
the script's `NEW_CONTACTS`/`UPDATES` table); and for the tech-director and
curriculum-director merges whenever the stored contact passes that merge's
own title check.  The 'Chief Information Officer' entries fail that check and
are duplicated by a second application. -/
theorem merge_idempotence_spec :
    (∀ (contacts : List Contact) (found : Option (String × Option String)),
        enrich_contacts_step (enrich_contacts_step contacts found) found =
          enrich_contacts_step contacts found) ∧
    (∀ (contacts : List Contact) (fx : SuptFix),
        apply_supt_fix (apply_supt_fix contacts fx) fx = apply_supt_fix contacts fx) ∧
    (∀ (contacts : List Contact) (e : DirEntry), techCheckC (manualContact e) = true →
        fix_tech (fix_tech contacts e) e = fix_tech contacts e) ∧
    (∀ (contacts : List Contact) (e : DirEntry), curricCheckC (manualContact e) = true →
        fix_curric (fix_curric contacts e) e = fix_curric contacts e) ∧
    (∀ (contacts : List Contact) (newCs : List NewContact) (updates : Option (Option String)),
        (newCs.map (fun x => x.name)).Nodup →
        (∀ o : String, updates = some (some o) → o ∉ newCs.map (fun x => x.name)) →
        ucb_merge (ucb_merge contacts newCs updates) newCs updates =
          ucb_merge contacts newCs updates) := by
  refine ⟨?_, ?_, ?_, ?_, ?_⟩
  · intro contacts found
    cases hs : hasSupt contacts with
    | true => simp [enrich_contacts_step, hs]
    | false =>
      cases found with
      | none => simp [enrich_contacts_step, hs]
      | some nm =>
        have h1 : enrich_contacts_step contacts (some nm) =
            ballotpediaContact nm.1 nm.2 :: contacts := by
          simp [enrich_contacts_step, hs]
        have hb : isSuptC (ballotpediaContact nm.1 nm.2) = true := rfl
        have h2 : hasSupt (ballotpediaContact nm.1 nm.2 :: contacts) = true := by
          simp only [hasSupt, List.any_cons, hb, Bool.true_or]
        rw [h1]
        simp [enrich_contacts_step, h2]
  · intro contacts fx
    induction contacts with
    | nil => rfl
    | cons c rest ih =>
      cases hc : (c.title == some "Superintendent") with
      | true =>
        have h1 : apply_supt_fix (c :: rest) fx = applyFixTo c fx :: rest := by
          simp [apply_supt_fix, hc]
        have hc2 : ((applyFixTo c fx).title == some "Superintendent") = true := hc
        rw [h1]
        simp [apply_supt_fix, hc2]
        rfl
      | false => simp [apply_supt_fix, hc, ih]
  · intro contacts e he
    cases hf : (contacts.filter techCheckC).isEmpty with
    | false => simp [fix_tech, hf]
    | true =>
      have hnil : contacts.filter techCheckC = [] := by
        simpa using hf
      simp [fix_tech, hf, List.filter_append, hnil, he]
  · intro contacts e he
    cases hf : (contacts.filter curricCheckC).isEmpty with
    | false => simp [fix_curric, hf]
    | true =>
      have hnil : contacts.filter curricCheckC = [] := by
        simpa using hf
      simp [fix_curric, hf, List.filter_append, hnil, he]
  · intro contacts newCs updates hnd hold
    have h0 : UcbInv (contactNames contacts) updates [] contacts := by
      refine ⟨?_, ?_, ?_⟩
      · intro n hn _
        exact hn
      · intro c hcm
        exact Or.inl (mem_contactNames hcm)
      · intro nc hnc
        exact absurd hnc (List.not_mem_nil nc)
    have hfold := ucb_fold_inv (contactNames contacts) updates newCs [] contacts
      (by simpa using hnd) (by intro o ho; simpa using hold o ho) h0
    have hdone := hfold.2.2
    show newCs.foldl (ucbStep (contactNames (ucb_merge contacts newCs updates)) updates)
        (ucb_merge contacts newCs updates) = ucb_merge contacts newCs updates
    apply ucb_steps_id
    intro nc hin
    exact hdone nc (by simpa using hin)

/-- The `NEW_CONTACTS['Seattle Public Schools']` batch and the corresponding
`UPDATES` old-superintendent entry of `update_contacts_batch`. -/
def NEW_CONTACTS_SEATTLE : List NewContact :=
  [{ name := "Ben Shuldiner", title := "Superintendent",
     email := "bshuldiner@seattleschools.org", source := "District website" },
   { name := "Carlos Del Valle", title := "Assistant Superintendent of Technology",
     email := "cdelvalle@seattleschools.org", source := "District website" },
   { name := "Fred Podesta", title := "Chief Operations Officer",
     email := "fpodesta@seattleschools.org", source := "District website" },
   { name := "Bev Redmond", title := "Chief of Staff",
     email := "bredmond@seattleschools.org", source := "District website" },
   { name := "Dr. Kurt Buttleman", title := "Assistant Superintendent of Finance",
     email := "kbuttleman@seattleschools.org", source := "District website" }]

/-- C8 witness: the idempotence theorem applied to a concrete tech-director
entry whose stored title passes the check, and to the script's own Seattle
batch and UPDATES entry over a district whose sole contact is the outgoing
superintendent. -/
theorem merge_idempotence_spec_witness :
    (fix_tech (fix_tech [] { name := "Krista Lundquist", title := "Chief Technology Officer",
                             email := "klundquist@seattleschools.org" })
        { name := "Krista Lundquist", title := "Chief Technology Officer",
          email := "klundquist@seattleschools.org" } =
      fix_tech [] { name := "Krista Lundquist", title := "Chief Technology Officer",
                    email := "klundquist@seattleschools.org" }) ∧
    ucb_merge (ucb_merge [{ name := "Brent Jones", title := some "Superintendent" }]
          NEW_CONTACTS_SEATTLE (some (some "Brent Jones")))
        NEW_CONTACTS_SEATTLE (some (some "Brent Jones")) =
      ucb_merge [{ name := "Brent Jones", title := some "Superintendent" }]
        NEW_CONTACTS_SEATTLE (some (some "Brent Jones")) := by
  constructor
  · exact merge_idempotence_spec.2.2.1 []
      { name := "Krista Lundquist", title := "Chief Technology Officer",
        email := "klundquist@seattleschools.org" } (by decide)
  · refine merge_idempotence_spec.2.2.2.2
      [{ name := "Brent Jones", title := some "Superintendent" }]
      NEW_CONTACTS_SEATTLE (some (some "Brent Jones")) (by decide) ?_
    intro o ho
    have ho2 : "Brent Jones" = o := by simpa using ho
    subst ho2
    decide

/-! ## C6 -/

/-- C6 counterexample: the batch-update pass deduplicates by contact name
only; merging a new superintendent whose name and the configured old
superintendent's name are both absent appends a second superintendent-titled
contact, so the pass output holds two contacts of the superintendent
category. -/
theorem title_uniqueness_cex :
    (ucb_merge [{ name := "Existing Person", title := some "Superintendent" }]
        [{ name := "Ben Shuldiner", title := "Superintendent",
           email := "bshuldiner@seattleschools.org", source := "District website" }]
        (some (some "Brent Jones"))).countP (fun c => isSuptC c) = 2 := by decide

/-- C6 amended: not every enrichment pass checks title categories before
appending — the batch-update pass checks contact names only and can emit two
superintendent-category contacts.  The Ballotpedia superintendent pass and
the tech- and curriculum-director merges do guard on their title checks, and each
preserves 'at most one contact passing that check'. -/
theorem title_category_guards_spec :
    (∀ (contacts : List Contact) (found : Option (String × Option String)),
        contacts.countP (fun c => isSuptC c) ≤ 1 →
        (enrich_contacts_step contacts found).countP (fun c => isSuptC c) ≤ 1) ∧
    (∀ (contacts : List Contact) (e : DirEntry),
        contacts.countP (fun c => techCheckC c) ≤ 1 →
        (fix_tech contacts e).countP (fun c => techCheckC c) ≤ 1) ∧
    (∀ (contacts : List Contact) (e : DirEntry),
        contacts.countP (fun c => curricCheckC c) ≤ 1 →
        (fix_curric contacts e).countP (fun c => curricCheckC c) ≤ 1) := by
  refine ⟨?_, ?_, ?_⟩
  · intro contacts found h
    cases hs : hasSupt contacts with
    | true => simpa [enrich_contacts_step, hs] using h
    | false =>
      have hz : contacts.countP (fun c => isSuptC c) = 0 := by
        rw [List.countP_eq_zero]
        intro a ha
        have := List.any_eq_false.mp hs a ha
        simpa using this
      cases found with
      | none => simpa [enrich_contacts_step, hs] using h
      | some nm =>
        simp [enrich_contacts_step, hs, List.countP_cons, hz]
        split <;> simp
  · intro contacts e h
    cases hf : (contacts.filter techCheckC).isEmpty with
    | false => simpa [fix_tech, hf] using h
    | true =>
      have hz : contacts.countP (fun c => techCheckC c) = 0 := by
        have hnil : contacts.filter techCheckC = [] := by simpa using hf
        simp [List.countP_eq_length_filter, hnil]
      simp [fix_tech, hf, List.countP_append, hz, List.countP_cons]
      split <;> omega
  · intro contacts e h
    cases hf : (contacts.filter curricCheckC).isEmpty with
    | false => simpa [fix_curric, hf] using h
    | true =>
      have hz : contacts.countP (fun c => curricCheckC c) = 0 := by
        have hnil : contacts.filter curricCheckC = [] := by simpa using hf
        simp [List.countP_eq_length_filter, hnil]
      simp [fix_curric, hf, List.countP_append, hz, List.countP_cons]
      split <;> omega

/-- C6 witness: the guard theorem applied to a concrete empty contacts list. -/
theorem title_category_guards_spec_witness :
    (enrich_contacts_step [] (some ("Pat Quinn", none))).countP (fun c => isSuptC c) ≤ 1 :=
  title_category_guards_spec.1 [] (some ("Pat Quinn", none)) (by decide)

end TCProspects

namespace TCProspects

/-! ## C1 -/

/-- Loop invariant of the matcher fold over the processed prefix `H`: either
nothing has been accepted and every processed score is at most `0.5`, or the
state holds the first processed candidate attaining the strict maximum of the
processed scores, that maximum exceeding `0.5`. -/
def MatcherInv (f : District → Rat) (H : List District)
    (st : Option MatchResult × Rat) : Prop :=
  (st = (none, 0) ∧ ∀ d ∈ H, f d ≤ 1 / 2) ∨
  (∃ pre d post, H = pre ++ d :: post ∧ st = (some (mkMatch d (f d)), f d) ∧
    1 / 2 < f d ∧ (∀ e ∈ H, f e ≤ f d) ∧ (∀ e ∈ pre, f e < f d))

theorem matcherStep_eq (nameNorm : String) (st : Option MatchResult × Rat) (d : District) :
    matcherStep nameNorm st d =
      if st.2 < districtScore nameNorm d ∧ (1 : Rat) / 2 < districtScore nameNorm d then
        (some (mkMatch d (districtScore nameNorm d)), districtScore nameNorm d)
      else st := rfl

theorem matcherStep_inv (nameNorm : String) (H : List District)
    (st : Option MatchResult × Rat) (d : District)
    (h : MatcherInv (districtScore nameNorm) H st) :
    MatcherInv (districtScore nameNorm) (H ++ [d]) (matcherStep nameNorm st d) := by
  rw [matcherStep_eq]
  rcases h with ⟨hst, hall⟩ | ⟨pre, b, post, hH, hst, hb, hmax, hpre⟩
  · by_cases hgt : (1 : Rat) / 2 < districtScore nameNorm d
    · have hcond : st.2 < districtScore nameNorm d ∧
          (1 : Rat) / 2 < districtScore nameNorm d := by
        refine ⟨?_, hgt⟩
        rw [hst]
        exact lt_trans (by norm_num) hgt
      rw [if_pos hcond]
      refine Or.inr ⟨H, d, [], rfl, rfl, hgt, ?_, ?_⟩
      · intro e he
        rcases List.mem_append.mp he with heH | heD
        · exact le_trans (hall e heH) (le_of_lt hgt)
        · have hed : e = d := by simpa using heD
          subst hed
          exact le_refl _
      · intro e heH
        exact lt_of_le_of_lt (hall e heH) hgt
    · have hcond : ¬ (st.2 < districtScore nameNorm d ∧
          (1 : Rat) / 2 < districtScore nameNorm d) := fun hc => hgt hc.2
      rw [if_neg hcond]
      refine Or.inl ⟨hst, ?_⟩
      intro e he
      rcases List.mem_append.mp he with heH | heD
      · exact hall e heH
      · have hed : e = d := by simpa using heD
        subst hed
        exact not_lt.mp hgt
  · by_cases hgt : districtScore nameNorm b < districtScore nameNorm d
    · have hcond : st.2 < districtScore nameNorm d ∧
          (1 : Rat) / 2 < districtScore nameNorm d := by
        refine ⟨?_, lt_trans hb hgt⟩
        rw [hst]
        exact hgt
      rw [if_pos hcond]
      refine Or.inr ⟨H, d, [], rfl, rfl, lt_trans hb hgt, ?_, ?_⟩
      · intro e he
        rcases List.mem_append.mp he with heH | heD
        · exact le_trans (hmax e heH) (le_of_lt hgt)
        · have hed : e = d := by simpa using heD
          subst hed
          exact le_refl _
      · intro e heH
        exact lt_of_le_of_lt (hmax e heH) hgt
    · have hcond : ¬ (st.2 < districtScore nameNorm d ∧
          (1 : Rat) / 2 < districtScore nameNorm d) := by
        intro hc
        apply hgt
        have := hc.1
        rw [hst] at this
        exact this
      rw [if_neg hcond]
      refine Or.inr ⟨pre, b, post ++ [d], ?_, hst, hb, ?_, hpre⟩
      · rw [hH]
        simp
      · intro e he
        rcases List.mem_append.mp he with heH | heD
        · exact hmax e heH
        · have hed : e = d := by simpa using heD
          subst hed
          exact not_lt.mp hgt

theorem matcher_fold_inv (nameNorm : String) (L H : List District)
    (st : Option MatchResult × Rat)
    (h : MatcherInv (districtScore nameNorm) H st) :
    MatcherInv (districtScore nameNorm) (H ++ L)
      (L.foldl (matcherStep nameNorm) st) := by
  induction L generalizing H st with
  | nil => simpa using h
  | cons d L ih =>
    have h1 := matcherStep_inv nameNorm H st d h
    have h2 := ih (H ++ [d]) (matcherStep nameNorm st d) h1
    simpa using h2

/-- C1: the matcher returns no match exactly when every candidate's score is
at most `0.5`; otherwise it returns the earliest-listed candidate attaining
the maximum score (strict `>` tracking, first seen wins ties), and the match
carries the district's name, state, defaulted enrollment, and the confidence
rounded to two decimals (all packaged by `mkMatch`). -/
theorem matcher_best_candidate_spec (subdomain : String) (districts : List District) :
    (match_subdomain_to_district subdomain districts = none ↔
      ∀ d ∈ districts, districtScore (matcherNorm subdomain) d ≤ 1 / 2) ∧
    (∀ r, match_subdomain_to_district subdomain districts = some r →
      ∃ pre d post, districts = pre ++ d :: post ∧
        r = mkMatch d (districtScore (matcherNorm subdomain) d) ∧
        (1 : Rat) / 2 < districtScore (matcherNorm subdomain) d ∧
        (∀ e ∈ districts, districtScore (matcherNorm subdomain) e ≤
          districtScore (matcherNorm subdomain) d) ∧
        (∀ e ∈ pre, districtScore (matcherNorm subdomain) e <
          districtScore (matcherNorm subdomain) d)) := by
  have hM : match_subdomain_to_district subdomain districts =
      (districts.foldl (matcherStep (matcherNorm subdomain))
        ((none : Option MatchResult), (0 : Rat))).1 := rfl
  have hInv := matcher_fold_inv (matcherNorm subdomain) districts []
    ((none : Option MatchResult), (0 : Rat))
    (Or.inl ⟨rfl, by simp⟩)
  rw [List.nil_append] at hInv
  rcases hInv with ⟨hst, hall⟩ | ⟨pre, b, post, hH, hst, hb, hmax, hpre⟩
  · constructor
    · constructor
      · intro _
        exact hall
      · intro _
        rw [hM, hst]
    · intro r hr
      rw [hM, hst] at hr
      cases hr
  · constructor
    · constructor
      · intro hnone
        rw [hM, hst] at hnone
        cases hnone
      · intro hle
        exfalso
        have hbmem : b ∈ districts := by
          rw [hH]
          exact List.mem_append.mpr (Or.inr (List.mem_cons_self b post))
        exact absurd hb (not_lt.mpr (hle b hbmem))
    · intro r hr
      rw [hM, hst] at hr
      have hrb : r = mkMatch b (districtScore (matcherNorm subdomain) b) :=
        (Option.some.injEq _ _ ▸ hr).symm
      exact ⟨pre, b, post, hH, hrb, hb, hmax, hpre⟩

/-- C1 witness: the matcher theorem applied to the concrete subdomain
`kent-wa` and a single concrete Kent district candidate. -/
theorem matcher_best_candidate_spec_witness :
    ∃ pre d post,
      [({ name := "Kent School District", state := "WA", city := some "Kent",
          enrollment := some 27000 } : District)] = pre ++ d :: post ∧
      mkMatch ({ name := "Kent School District", state := "WA", city := some "Kent",
                 enrollment := some 27000 } : District)
          (districtScore (matcherNorm "kent-wa")
            ({ name := "Kent School District", state := "WA", city := some "Kent",
               enrollment := some 27000 } : District)) =
        mkMatch d (districtScore (matcherNorm "kent-wa") d) ∧
      (1 : Rat) / 2 < districtScore (matcherNorm "kent-wa") d ∧
      (∀ e ∈ [({ name := "Kent School District", state := "WA", city := some "Kent",
                 enrollment := some 27000 } : District)],
        districtScore (matcherNorm "kent-wa") e ≤ districtScore (matcherNorm "kent-wa") d) ∧
      (∀ e ∈ pre, districtScore (matcherNorm "kent-wa") e <
        districtScore (matcherNorm "kent-wa") d) := by
  have hnn : matcherNorm "kent-wa" = "kent wa" := by decide
  have hkn : normalize_name "Kent School District" = "kent" := by decide
  have hcontain : (strIn "kent wa".data "kent".data || strIn "kent".data "kent wa".data) = true := by
    decide
  have hbase : preBoostScore "kent wa" "kent" = (9 : Rat) / 10 := by
    simp [preBoostScore, hcontain]
  have hcity : (!(pyLower ((some "Kent" : Option String).getD "")).isEmpty &&
      strIn (pyLower ((some "Kent" : Option String).getD "")).data "kent wa".data) = true := by
    decide
  have hsc : districtScore (matcherNorm "kent-wa")
      ({ name := "Kent School District", state := "WA", city := some "Kent",
         enrollment := some 27000 } : District) = (9 : Rat) / 10 + 1 / 5 := by
    rw [hnn]
    simp [districtScore, hkn, hbase, hcity]
    exact ⟨by decide, by decide⟩
  have hstep : match_subdomain_to_district "kent-wa"
      [({ name := "Kent School District", state := "WA", city := some "Kent",
          enrollment := some 27000 } : District)] =
      some (mkMatch ({ name := "Kent School District", state := "WA", city := some "Kent",
                       enrollment := some 27000 } : District)
        (districtScore (matcherNorm "kent-wa")
          ({ name := "Kent School District", state := "WA", city := some "Kent",
             enrollment := some 27000 } : District))) := by
    show (matcherStep (matcherNorm "kent-wa") ((none : Option MatchResult), (0 : Rat))
        ({ name := "Kent School District", state := "WA", city := some "Kent",
           enrollment := some 27000 } : District)).1 = _
    rw [matcherStep_eq]
    rw [if_pos ⟨by rw [hsc]; norm_num, by rw [hsc]; norm_num⟩]
  exact (matcher_best_candidate_spec "kent-wa"
    [({ name := "Kent School District", state := "WA", city := some "Kent",
        enrollment := some 27000 } : District)]).2 _ hstep

end TCProspects

namespace TCProspects

/-! ## C4 -/

/-- C4 counterexample: `normalize_name` is not idempotent — stripping the dot
from `k.12` fabricates the boilerplate token `k12`, which a second pass then
removes: `normalize_name "k.12" = "k12"` but `normalize_name "k12" = ""`. -/
theorem normalize_idempotent_cex :
    normalize_name (normalize_name "k.12") ≠ normalize_name "k.12" := by decide

theorem mem_squeezeWs {c : Char} :
    ∀ (b : Bool) (l : List Char),
      c ∈ squeezeWs b l → c = ' ' ∨ (c ∈ l ∧ pyIsSpace c = false) := by
  intro b l
  induction l generalizing b with
  | nil =>
    intro h
    simp [squeezeWs] at h
  | cons a l ih =>
    intro h
    by_cases ha : pyIsSpace a = true
    · simp only [squeezeWs, ha, if_true] at h
      cases b with
      | true =>
        rcases ih true h with h1 | h2
        · exact Or.inl h1
        · exact Or.inr ⟨List.mem_cons_of_mem a h2.1, h2.2⟩
      | false =>
        rcases List.mem_cons.mp h with h1 | h1
        · exact Or.inl h1
        · rcases ih true h1 with h2 | h3
          · exact Or.inl h2
          · exact Or.inr ⟨List.mem_cons_of_mem a h3.1, h3.2⟩
    · simp only [squeezeWs, ha, if_false] at h
      rcases List.mem_cons.mp h with h1 | h1
      · refine Or.inr ⟨?_, ?_⟩
        · rw [h1]
          exact List.mem_cons_self a l
        · rw [h1]
          simpa using ha
      · rcases ih false h1 with h2 | h3
        · exact Or.inl h2
        · exact Or.inr ⟨List.mem_cons_of_mem a h3.1, h3.2⟩

theorem mem_pyStripChars {c : Char} (l : List Char) (h : c ∈ pyStripChars l) : c ∈ l := by
  unfold pyStripChars at h
  have h1 := List.mem_reverse.mp h
  have h2 := (List.dropWhile_suffix pyIsSpace).subset h1
  have h3 := List.mem_reverse.mp h2
  exact (List.dropWhile_suffix pyIsSpace).subset h3

/-- Characters that can appear in `normalize_name` output: lower-case ASCII
letters, digits, and the plain space. -/
def normChar (c : Char) : Prop :=
  (97 ≤ c.toNat ∧ c.toNat ≤ 122) ∨ (48 ≤ c.toNat ∧ c.toNat ≤ 57) ∨ c = ' '

theorem collapse_chars (y : String) : ∀ c ∈ (collapseWs (stripBad y)).data, normChar c := by
  intro c hc
  have hc1 : c ∈ squeezeWs false (stripBad y).data := mem_pyStripChars _ hc
  rcases mem_squeezeWs false _ hc1 with h | ⟨hmem, hns⟩
  · exact Or.inr (Or.inr h)
  · have hk : keepChar c = true := List.of_mem_filter hmem
    simp only [keepChar, Bool.or_eq_true, Bool.and_eq_true, decide_eq_true_eq] at hk
    rcases hk with (h1 | h2) | h3
    · exact Or.inl h1
    · exact Or.inr (Or.inl h2)
    · rw [hns] at h3
      cases h3

theorem normalize_chars (x : String) : ∀ c ∈ (normalize_name x).data, normChar c :=
  collapse_chars (removeSuffixes (pyLower x))

theorem pyLowerChar_id {c : Char} (h : normChar c) : pyLowerChar c = c := by
  rcases h with h1 | h2 | h3
  · unfold pyLowerChar
    rw [if_neg (by omega)]
  · unfold pyLowerChar
    rw [if_neg (by omega)]
  · subst h3
    decide

theorem map_pyLowerChar_id (l : List Char) (h : ∀ c ∈ l, normChar c) :
    l.map pyLowerChar = l := by
  induction l with
  | nil => rfl
  | cons a l ih =>
    rw [List.map_cons, pyLowerChar_id (h a (List.mem_cons_self a l)),
      ih (fun c hc => h c (List.mem_cons_of_mem a hc))]

theorem pyLower_id_of (s : String) (h : ∀ c ∈ s.data, normChar c) : pyLower s = s := by
  unfold pyLower
  rw [map_pyLowerChar_id s.data h]

theorem subAux_subset (p : List Char) :
    ∀ (fuel : Nat) (prev : Option Char) (s : List Char) (c : Char),
      c ∈ subAux p fuel prev s → c ∈ s := by
  intro fuel
  induction fuel with
  | zero =>
    intro prev s c h
    simpa [subAux] using h
  | succ n ih =>
    intro prev s c h
    cases s with
    | nil => simp [subAux] at h
    | cons a rest =>
      by_cases hw : wholeWordAt p prev (a :: rest) = true
      · simp only [subAux, hw, if_true] at h
        exact List.drop_subset _ _ (ih _ _ _ h)
      · simp only [subAux, hw, if_false] at h
        rcases List.mem_cons.mp h with h1 | h1
        · rw [h1]
          exact List.mem_cons_self a rest
        · exact List.mem_cons_of_mem a (ih _ _ _ h1)

theorem foldl_sub_subset (pats : List String) :
    ∀ (s : String) (c : Char),
      c ∈ (pats.foldl (fun acc suf => subWholeWord suf acc) s).data → c ∈ s.data := by
  induction pats with
  | nil =>
    intro s c h
    simpa using h
  | cons p ps ih =>
    intro s c h
    have h1 := ih (subWholeWord p s) c (by simpa [List.foldl_cons] using h)
    exact subAux_subset p.data _ _ _ _ h1

theorem keepChar_of_normChar {c : Char} (h : normChar c) : keepChar c = true := by
  rcases h with h1 | h2 | h3
  · simp only [keepChar, Bool.or_eq_true, Bool.and_eq_true, decide_eq_true_eq]
    exact Or.inl (Or.inl h1)
  · simp only [keepChar, Bool.or_eq_true, Bool.and_eq_true, decide_eq_true_eq]
    exact Or.inl (Or.inr h2)
  · subst h3
    decide

theorem stripBad_id_of (s : String) (h : ∀ c ∈ s.data, normChar c) : stripBad s = s := by
  unfold stripBad
  rw [List.filter_eq_self.mpr (fun a ha => keepChar_of_normChar (h a ha))]

/-- No two adjacent characters are both the plain space. -/
def noTwoSpaces : Char → Char → Prop := fun a b => ¬ (a = ' ' ∧ b = ' ')

theorem squeezeWs_chain (l : List Char) :
    List.Chain' noTwoSpaces (squeezeWs false l) ∧
    List.Chain' noTwoSpaces (squeezeWs true l) ∧
    (∀ c, (squeezeWs true l).head? = some c → c ≠ ' ') := by
  induction l with
  | nil =>
    refine ⟨List.chain'_nil, List.chain'_nil, ?_⟩
    intro c h
    simp [squeezeWs] at h
  | cons a l ih =>
    obtain ⟨ihf, iht, ihh⟩ := ih
    by_cases ha : pyIsSpace a = true
    · have e1 : squeezeWs false (a :: l) = ' ' :: squeezeWs true l := by
        simp [squeezeWs, ha]
      have e2 : squeezeWs true (a :: l) = squeezeWs true l := by
        simp [squeezeWs, ha]
      refine ⟨?_, ?_, ?_⟩
      · rw [e1, List.chain'_cons']
        exact ⟨fun y hy hcon => (ihh y hy) hcon.2, iht⟩
      · rw [e2]
        exact iht
      · rw [e2]
        exact ihh
    · have e : ∀ b, squeezeWs b (a :: l) = a :: squeezeWs false l := by
        intro b
        simp [squeezeWs, ha]
      have hane : a ≠ ' ' := by
        intro hh
        subst hh
        exact ha (by decide)
      refine ⟨?_, ?_, ?_⟩
      · rw [e false, List.chain'_cons']
        exact ⟨fun y _ hcon => hane hcon.1, ihf⟩
      · rw [e true, List.chain'_cons']
        exact ⟨fun y _ hcon => hane hcon.1, ihf⟩
      · rw [e true]
        intro c hc
        simp only [List.head?_cons, Option.some.injEq] at hc
        subst hc
        exact hane

theorem squeezeWs_spaces (l : List Char) :
    ∀ c ∈ squeezeWs false l, pyIsSpace c = true → c = ' ' := by
  intro c hc hs
  rcases mem_squeezeWs false l hc with h | ⟨_, hns⟩
  · exact h
  · rw [hns] at hs
    cases hs

theorem pyStripChars_chain {l : List Char} (h : List.Chain' noTwoSpaces l) :
    List.Chain' noTwoSpaces (pyStripChars l) := by
  unfold pyStripChars
  have h1 : List.Chain' noTwoSpaces (l.dropWhile pyIsSpace) :=
    h.suffix (List.dropWhile_suffix pyIsSpace)
  have h2 : List.Chain' (flip noTwoSpaces) (l.dropWhile pyIsSpace) :=
    h1.imp (fun a b hab hcon => hab ⟨hcon.2, hcon.1⟩)
  have h3 : List.Chain' noTwoSpaces ((l.dropWhile pyIsSpace).reverse) :=
    List.chain'_reverse.mpr h2
  have h4 := h3.suffix (List.dropWhile_suffix pyIsSpace)
  have h5 : List.Chain' (flip noTwoSpaces)
      (((l.dropWhile pyIsSpace).reverse).dropWhile pyIsSpace) :=
    h4.imp (fun a b hab hcon => hab ⟨hcon.2, hcon.1⟩)
  exact List.chain'_reverse.mpr h5

theorem head?_dropWhile_not (p : Char → Bool) :
    ∀ (l : List Char) (c : Char), (l.dropWhile p).head? = some c → p c = false := by
  intro l
  induction l with
  | nil =>
    intro c h
    simp at h
  | cons a l ih =>
    intro c h
    rw [List.dropWhile_cons] at h
    by_cases hp : p a = true
    · rw [if_pos hp] at h
      exact ih c h
    · rw [if_neg hp] at h
      simp only [List.head?_cons, Option.some.injEq] at h
      subst h
      simpa using hp

theorem dropWhile_eq_self_of_head (p : Char → Bool) (l : List Char)
    (h : ∀ c, l.head? = some c → p c = false) : l.dropWhile p = l := by
  cases l with
  | nil => rfl
  | cons a l =>
    rw [List.dropWhile_cons, if_neg (by simp [h a rfl])]

theorem pyStripChars_head {l : List Char} :
    ∀ c, (pyStripChars l).head? = some c → pyIsSpace c = false := by
  intro c hc
  unfold pyStripChars at hc
  rw [List.head?_reverse] at hc
  cases hu : ((l.dropWhile pyIsSpace).reverse).dropWhile pyIsSpace with
  | nil =>
    rw [hu] at hc
    simp at hc
  | cons u us =>
    obtain ⟨w, hw⟩ := List.dropWhile_suffix (l := (l.dropWhile pyIsSpace).reverse) pyIsSpace
    rw [hu] at hc
    have hne : u :: us ≠ [] := by simp
    have hlast : ((l.dropWhile pyIsSpace).reverse).getLast? = some c := by
      rw [← hw, hu, List.getLast?_append_of_ne_nil w hne]
      exact hc
    rw [List.getLast?_reverse] at hlast
    exact head?_dropWhile_not pyIsSpace l c hlast

theorem pyStripChars_last {l : List Char} :
    ∀ c, (pyStripChars l).getLast? = some c → pyIsSpace c = false := by
  intro c hc
  unfold pyStripChars at hc
  rw [List.getLast?_reverse] at hc
  exact head?_dropWhile_not pyIsSpace _ c hc

theorem pyStripChars_id {l : List Char}
    (hh : ∀ c, l.head? = some c → pyIsSpace c = false)
    (hl : ∀ c, l.getLast? = some c → pyIsSpace c = false) :
    pyStripChars l = l := by
  unfold pyStripChars
  rw [dropWhile_eq_self_of_head pyIsSpace l hh]
  rw [dropWhile_eq_self_of_head pyIsSpace l.reverse
    (fun c hc => hl c (by rwa [List.head?_reverse] at hc))]
  exact List.reverse_reverse l

theorem squeezeWs_id (l : List Char)
    (hsp : ∀ c ∈ l, pyIsSpace c = true → c = ' ')
    (hch : List.Chain' noTwoSpaces l) :
    squeezeWs false l = l ∧
      ((∀ c, l.head? = some c → c ≠ ' ') → squeezeWs true l = l) := by
  induction l with
  | nil => exact ⟨rfl, fun _ => rfl⟩
  | cons a l ih =>
    obtain ⟨hr, hcl⟩ := List.chain'_cons'.mp hch
    have hspl : ∀ c ∈ l, pyIsSpace c = true → c = ' ' :=
      fun c hc => hsp c (List.mem_cons_of_mem a hc)
    obtain ⟨ihf, iht⟩ := ih hspl hcl
    by_cases ha : pyIsSpace a = true
    · have haeq : a = ' ' := hsp a (List.mem_cons_self a l) ha
      have hlh : ∀ c, l.head? = some c → c ≠ ' ' := by
        intro c hc hceq
        exact (hr c hc) ⟨haeq, hceq⟩
      have e1 : squeezeWs false (a :: l) = ' ' :: squeezeWs true l := by
        simp [squeezeWs, ha]
      refine ⟨?_, ?_⟩
      · rw [e1, iht hlh, haeq]
      · intro hhead
        exact absurd haeq (hhead a rfl)
    · have e : ∀ b, squeezeWs b (a :: l) = a :: squeezeWs false l := by
        intro b
        simp [squeezeWs, ha]
      exact ⟨by rw [e false, ihf], fun _ => by rw [e true, ihf]⟩

theorem collapseWs_idem (w : String) : collapseWs (collapseWs w) = collapseWs w := by
  have hdata : (collapseWs w).data = pyStripChars (squeezeWs false w.data) := rfl
  have hsp : ∀ c ∈ pyStripChars (squeezeWs false w.data), pyIsSpace c = true → c = ' ' := by
    intro c hc hs
    exact squeezeWs_spaces w.data c (mem_pyStripChars _ hc) hs
  have hch : List.Chain' noTwoSpaces (pyStripChars (squeezeWs false w.data)) :=
    pyStripChars_chain (squeezeWs_chain w.data).1
  show String.mk (pyStripChars (squeezeWs false (collapseWs w).data)) = collapseWs w
  rw [hdata, (squeezeWs_id _ hsp hch).1,
    pyStripChars_id pyStripChars_head pyStripChars_last]
  rfl

/-- C4 amended: a second application of `normalize_name` is exactly one more
round of boilerplate-suffix removal — lower-casing and punctuation stripping
are identities on `normalize_name` output — so `normalize_name` is idempotent
precisely on those inputs whose normalized form contains no further
boilerplate token (the counterexample `"k.12"` normalizes to `"k12"`, which a
second pass erases). -/
theorem normalize_second_pass_spec :
    (∀ x : String, normalize_name (normalize_name x) =
        collapseWs (removeSuffixes (normalize_name x))) ∧
    (∀ x : String, removeSuffixes (normalize_name x) = normalize_name x →
        normalize_name (normalize_name x) = normalize_name x) := by
  have hmain : ∀ x : String, normalize_name (normalize_name x) =
      collapseWs (removeSuffixes (normalize_name x)) := by
    intro x
    have hch := normalize_chars x
    show collapseWs (stripBad (removeSuffixes (pyLower (normalize_name x)))) = _
    rw [pyLower_id_of _ hch, stripBad_id_of (removeSuffixes (normalize_name x))
      (fun c hc => hch c (foldl_sub_subset SUFFIXES _ c hc))]
  refine ⟨hmain, ?_⟩
  intro x h
  rw [hmain x, h]
  exact collapseWs_idem (stripBad (removeSuffixes (pyLower x)))

/-- C4 witness: the amended theorem applied to a concrete input whose
normalized form is boilerplate-free. -/
theorem normalize_second_pass_spec_witness :
    normalize_name (normalize_name "Seattle Public Schools") =
      normalize_name "Seattle Public Schools" :=
  normalize_second_pass_spec.2 "Seattle Public Schools" (by decide)

end TCProspects
